import Mathlib

/-!
Verification of the Bloom filter implementation in `bloomfilter.go`
(package `bloomfilter`).

Modelling conventions:

* Go `uint64` values are modelled as `Nat`.  The operations the claims
  exercise (`^` xor, `|` or, `>>`/`<<` shifts by at most 63, `%`) never
  overflow 64 bits when their inputs are below `2^64`, so no explicit
  `% 2^64` reduction is needed for them; the insertion counter `n`,
  which is incremented by `Add`, carries an explicit `% 2^64`.
* The `Filter` struct is embedded field by field; methods become pure
  functions from the receiver (and arguments) to the updated filter,
  so mutation of the receiver appears as the returned value.
* A `Hashable` element is represented by the `uint64` value its
  `BloomFilterHash()` method returns, i.e. elements are `Nat`s.
* `newKeys` draws its keys from a clock-seeded PRNG; constructions take
  the generated key list as an explicit argument (`newKeys k` always
  returns a slice of length `k`, which appears as a hypothesis).
* `panic` paths (`New` preconditions) are modelled with `Option`.
* Slice indexing `s[i]` is modelled with `List.getD _ _ 0` / `List.set`;
  the Go code only indexes in bounds when the filter satisfies the
  word-count invariant `len(bits) = ceil(m/64)`, which the theorems
  carry as a hypothesis where indexing matters.
-/

namespace BloomFilter

/-- The `Filter` struct of the source: `bits`, `keys` are `[]uint64`,
`m` the bit capacity, `n` the insertion counter. -/
structure Filter where
  bits : List Nat
  keys : List Nat
  m : Nat
  n : Nat
deriving DecidableEq

/-- `(m+63)>>6`, the number of 64-bit words backing `m` bits
(`ceiling(m / 64)`), as computed in `New` and `Copy`. -/
def wordsFor (m : Nat) : Nat := (m + 63) >>> 6

/-- `New(m, k)`: panics (here `none`) if `m <= 1` or `k = 0`; otherwise
a filter with `n = 0`, a zeroed word array of length `(m+63)>>6`, and
the keys produced by `newKeys(k)` (passed in as `keys`). -/
def New (m k : Nat) (keys : List Nat) : Option Filter :=
  if m ≤ 1 then none
  else if k = 0 then none
  else some { m := m, n := 0, bits := List.replicate (wordsFor m) 0, keys := keys }

/-- `getBit`: wraps the index (`if i >= f.m { i %= f.m }`) and returns
`(f.bits[i>>6] >> uint(i&0x3f)) != 0`.  Note the source tests the whole
shifted word against zero — there is no `& 1` mask. -/
def Filter.getBit (f : Filter) (i : Nat) : Bool :=
  let j := if i ≥ f.m then i % f.m else i
  ((f.bits.getD (j >>> 6) 0) >>> (j &&& 0x3f)) != 0

/-- `setBit`: wraps the index the same way and does
`f.bits[i>>6] |= 1 << uint(i&0x3f)`. -/
def Filter.setBit (f : Filter) (i : Nat) : Filter :=
  let j := if i ≥ f.m then i % f.m else i
  { f with bits := f.bits.set (j >>> 6) ((f.bits.getD (j >>> 6) 0) ||| (1 <<< (j &&& 0x3f))) }

/-- `hash(v)`: XOR the element's raw 64-bit hash with each derivation
key in key order. -/
def Filter.hash (f : Filter) (v : Nat) : List Nat :=
  f.keys.map (fun k => v ^^^ k)

/-- `M()` accessor. -/
def Filter.M (f : Filter) : Nat := f.m

/-- `N()` accessor. -/
def Filter.N (f : Filter) : Nat := f.n

/-- `K()`: the number of derivation keys, `len(f.keys)`. -/
def Filter.K (f : Filter) : Nat := f.keys.length

/-- `Add(v)`: sets the bit at each of the K derived indices, then
increments the (64-bit) insertion counter. -/
def Filter.Add (f : Filter) (v : Nat) : Filter :=
  let g := (f.hash v).foldl Filter.setBit f
  { g with n := (g.n + 1) % 2 ^ 64 }

/-- `Contains(v)`: false as soon as one derived index reads an unset
bit, true otherwise — i.e. all K derived indices must read true. -/
def Filter.Contains (f : Filter) (v : Nat) : Bool :=
  (f.hash v).all f.getBit

/-- A sequence of further `Add` calls, left to right. -/
def addAll (f : Filter) (vs : List Nat) : Filter :=
  vs.foldl Filter.Add f

/-- `IsCompatible`: false if `M()` or `K()` differ, otherwise the
element-wise comparison loop over the two (equal-length) key slices,
which is exactly list equality. -/
def Filter.IsCompatible (f f2 : Filter) : Bool :=
  if f.M = f2.M ∧ f.K = f2.K then f.keys = f2.keys else false

/-- `Copy()`: a fresh filter with the same `m` and `n`, a freshly
allocated key slice of length `K()` filled by `copy` from `f.keys`,
and a freshly allocated word array of length `(m+63)>>6` filled by
`copy` from `f.bits` (Go's `copy` transfers `min` of the two lengths;
the zero padding models the zeroed remainder of `make`). -/
def Filter.Copy (f : Filter) : Filter :=
  { m := f.m, n := f.n,
    keys := (f.keys ++ List.replicate f.K 0).take f.K,
    bits := (f.bits ++ List.replicate (wordsFor f.m) 0).take (wordsFor f.m) }

/-- The in-place loop `for i, x := range f2.bits { out.bits[i] |= x }`:
word-wise `or` along `f2.bits`, keeping the tail of `out.bits` when it
is longer.  (When `f2.bits` is longer than `out.bits` the Go loop
panics with an index out of range; every use in the claims has
equal-length word arrays.) -/
def orWords : List Nat → List Nat → List Nat
  | a, [] => a
  | [], _ :: _ => []
  | x :: a, y :: b => (x ||| y) :: orWords a b

/-- `Union(f2)`: error on incompatibility, otherwise a `Copy` of the
receiver whose word array is or-ed with `f2.bits`. -/
def Filter.Union (f f2 : Filter) : Except String Filter :=
  if f.IsCompatible f2 then
    Except.ok { f.Copy with bits := orWords f.Copy.bits f2.bits }
  else
    Except.error "Cannot combine incompatible Bloom filters"

/-!
Codec.  `MarshalBinary` writes, little-endian into a growing buffer:
`k := f.K()` (a `uint64`, 8 bytes), `f.n` (8 bytes), `f.m` (8 bytes),
the key slice (8 bytes per key) and the word slice (8 bytes per word).
`binary.Write` cannot fail on a `bytes.Buffer` with these fixed-size
arguments, so the byte list is returned directly.

`UnmarshalBinary` is modelled under the `encoding/binary` semantics of
the module-less Go toolchains this source was written against: the
three scalar reads pass `k`, `f.n` and `f.m` BY VALUE (no `&`), and
`binary.Read`'s fast path then consumes the value's size in bytes from
the buffer and returns `nil` without assigning anything (its
assignment switch matches only pointer and slice shapes).  Hence:
4 bytes are consumed for the local `var k uint32` (which stays `0`),
8 for `f.n` and 8 for `f.m` (both keep the receiver's prior values);
`f.keys` is reallocated with length `k = 0` and read (zero bytes);
`f.bits` is reallocated with length `f.n` — the receiver's old
insertion counter — and read as `8*n` little-endian words.  A read
past the end of the buffer returns `io.EOF` (nothing left) or
`io.ErrUnexpectedEOF` (partial data), aborting with the filter fields
assigned so far left in place.
-/

/-- 8 little-endian bytes of a `uint64` value. -/
def toLE8 (x : Nat) : List Nat :=
  (List.range 8).map (fun j => x / 256 ^ j % 256)

/-- Recompose a `uint64` from up to 8 little-endian bytes. -/
def fromLE8 (l : List Nat) : Nat :=
  l.foldr (fun b acc => acc * 256 + b % 256) 0

/-- Read `n` consecutive little-endian `uint64` words. -/
def readWords (n : Nat) (bs : List Nat) : List Nat :=
  (List.range n).map (fun i => fromLE8 ((bs.drop (8 * i)).take 8))

/-- The error `io.ReadFull` reports when `rem` bytes remain but more
were requested: `EOF` on an empty buffer, else `unexpected EOF`. -/
def eofMsg (rem : Nat) : String :=
  if rem = 0 then "EOF" else "unexpected EOF"

/-- `MarshalBinary`: `k`, `n`, `m`, keys, bits — all little-endian. -/
def Filter.MarshalBinary (f : Filter) : List Nat :=
  toLE8 f.K ++ toLE8 f.n ++ toLE8 f.m ++ (f.keys.map toLE8).flatten ++ (f.bits.map toLE8).flatten

/-- `UnmarshalBinary` (see the codec comment above): returns the
receiver's state after the call together with the reported error, if
any. -/
def Filter.UnmarshalBinary (f : Filter) (data : List Nat) : Filter × Option String :=
  if data.length < 4 then (f, some (eofMsg data.length))
  else if data.length < 12 then (f, some (eofMsg (data.length - 4)))
  else if data.length < 20 then (f, some (eofMsg (data.length - 12)))
  else
    let k : Nat := 0
    let f1 : Filter := { f with keys := List.replicate k 0 }
    let f2 : Filter := { f1 with bits := List.replicate f1.n 0 }
    if data.length < 20 + 8 * f2.n then (f2, some (eofMsg (data.length - 20)))
    else ({ f2 with bits := readWords f2.n (data.drop 20) }, none)

/-- A zero-valued `Filter` (`var f bloomfilter.Filter`), the receiver
a caller uses to deserialize a byte stream into. -/
def zeroFilter : Filter := { m := 0, n := 0, keys := [], bits := [] }

/-- `Deserialize(bytes)`: unmarshal into a fresh zero receiver. -/
def Deserialize (data : List Nat) : Filter × Option String :=
  zeroFilter.UnmarshalBinary data

/-- `OptimalM(maxN, p)`, with `float64` arithmetic modelled over the
reals: `uint64(math.Ceil(-float64(maxN) * math.Log(p) / math.Ln2 *
math.Ln2))` — note the left-associated `/ Ln2 * Ln2`.  The result is
the integer ceiling (non-negative for `p` in `(0,1)`, so the `uint64`
conversion is the identity on it). -/
noncomputable def OptimalM (maxN : Nat) (p : ℝ) : ℤ :=
  ⌈-(maxN : ℝ) * Real.log p / Real.log 2 * Real.log 2⌉

/-- The formula the specification states for `OptimalM`, for
comparison: `ceil(-maxN * ln(p) * ln(2))`. -/
noncomputable def OptimalMSpecFormula (maxN : Nat) (p : ℝ) : ℤ :=
  ⌈-(maxN : ℝ) * Real.log p * Real.log 2⌉

/-! Helper lemmas. -/

/-- The index reduction `if i >= m { i %= m }` shared by `getBit` and
`setBit`, as a proof-side abbreviation. -/
def bitIdx (m i : Nat) : Nat := if i ≥ m then i % m else i

theorem getBit_eq (f : Filter) (i : Nat) :
    f.getBit i = ((f.bits.getD (bitIdx f.m i >>> 6) 0) >>> (bitIdx f.m i &&& 63) != 0) := rfl

theorem setBit_eq (f : Filter) (i : Nat) :
    f.setBit i = { f with bits := (f.bits.set (bitIdx f.m i >>> 6)
      ((f.bits.getD (bitIdx f.m i >>> 6) 0) ||| (1 <<< (bitIdx f.m i &&& 63)))) } := rfl

theorem bitIdx_lt {m : Nat} (h : 1 ≤ m) (i : Nat) : bitIdx m i < m := by
  unfold bitIdx
  split
  · exact Nat.mod_lt _ h
  · omega

theorem bitIdx_eq_mod (m i : Nat) : bitIdx m i = i % m := by
  unfold bitIdx
  split
  · rfl
  · exact (Nat.mod_eq_of_lt (by omega)).symm

theorem le_lor_left (a b : Nat) : a ≤ a ||| b :=
  Nat.le_of_testBit (fun i h => by simp [Nat.testBit_lor, h])

theorem le_lor_right (a b : Nat) : b ≤ a ||| b :=
  Nat.le_of_testBit (fun i h => by simp [Nat.testBit_lor, h])

theorem shiftRight_eq_zero_iff (x s : Nat) : x >>> s = 0 ↔ x < 2 ^ s := by
  rw [Nat.shiftRight_eq_div_pow]
  exact Nat.div_eq_zero_iff (Nat.two_pow_pos s)

theorem bne_zero_shiftRight (x s : Nat) : (x >>> s != 0) = true ↔ 2 ^ s ≤ x := by
  rw [bne_iff_ne, ne_eq, shiftRight_eq_zero_iff, not_lt]

/-- `getBit` reads true exactly when the word holding the reduced
index is at least `2 ^ offset` (the source omits the `& 1` mask). -/
theorem getBit_true_iff (f : Filter) (i : Nat) :
    f.getBit i = true ↔
      2 ^ (bitIdx f.m i &&& 63) ≤ f.bits.getD (bitIdx f.m i >>> 6) 0 := by
  rw [getBit_eq, bne_zero_shiftRight]

/-- The word index addressed for a reduced bit index stays inside the
`ceil(m/64)` words of a well-formed array. -/
theorem bitIdx_word_lt {m : Nat} (h : 1 ≤ m) (i : Nat) :
    bitIdx m i >>> 6 < wordsFor m := by
  have hlt : bitIdx m i < m := bitIdx_lt h i
  rw [Nat.shiftRight_eq_div_pow]
  unfold wordsFor
  rw [Nat.shiftRight_eq_div_pow]
  have h64 : (2 : Nat) ^ 6 = 64 := by norm_num
  rw [h64]
  have hd : bitIdx m i / 64 * 64 ≤ bitIdx m i := Nat.div_mul_le_self _ _
  have : (bitIdx m i / 64 + 1) * 64 ≤ m + 63 := by omega
  have := (Nat.le_div_iff_mul_le (by omega : 0 < 64)).mpr this
  omega

theorem getD_set_le (l : List Nat) (w v j : Nat) (hv : l.getD w 0 ≤ v) :
    l.getD j 0 ≤ (l.set w v).getD j 0 := by
  simp only [List.getD_eq_getElem?_getD, List.getElem?_set]
  split
  · next he =>
    subst he
    split
    · next hw =>
      simpa [List.getElem?_eq_getElem hw] using hv
    · next hw =>
      rw [List.getElem?_eq_none (by omega)]
  · exact Nat.le_refl _

theorem getD_set_self (l : List Nat) (w v : Nat) (hw : w < l.length) :
    (l.set w v).getD w 0 = v := by
  simp [List.getD_eq_getElem?_getD, List.getElem?_set, hw]

theorem getD_replicate_zero (n j : Nat) : (List.replicate n 0).getD j 0 = 0 := by
  simp [List.getD_eq_getElem?_getD, List.getElem?_replicate]
  split <;> rfl

/-- A set bit is read back true, since the filter's word count covers
index `bitIdx m i` when `len(bits) = ceil(m/64)` (or more). -/
theorem getBit_setBit_self (f : Filter) (i : Nat) (hm : 1 ≤ f.m)
    (hlen : wordsFor f.m ≤ f.bits.length) : (f.setBit i).getBit i = true := by
  rw [getBit_true_iff, setBit_eq]
  have hw : bitIdx f.m i >>> 6 < f.bits.length :=
    Nat.lt_of_lt_of_le (bitIdx_word_lt hm i) hlen
  rw [getD_set_self _ _ _ hw]
  calc 2 ^ (bitIdx f.m i &&& 63)
      = 1 <<< (bitIdx f.m i &&& 63) := by rw [Nat.shiftLeft_eq, Nat.one_mul]
    _ ≤ _ := le_lor_right _ _

/-- `getBit` is monotone in the word array (same `m`). -/
theorem getBit_mono (f g : Filter) (hm : g.m = f.m)
    (hw : ∀ j, f.bits.getD j 0 ≤ g.bits.getD j 0) (i : Nat)
    (h : f.getBit i = true) : g.getBit i = true := by
  rw [getBit_true_iff] at h ⊢
  rw [hm]
  exact Nat.le_trans h (hw _)

theorem setBit_m (f : Filter) (i : Nat) : (f.setBit i).m = f.m := rfl

theorem setBit_n (f : Filter) (i : Nat) : (f.setBit i).n = f.n := rfl

theorem setBit_keys (f : Filter) (i : Nat) : (f.setBit i).keys = f.keys := rfl

theorem setBit_length (f : Filter) (i : Nat) :
    (f.setBit i).bits.length = f.bits.length := by
  rw [setBit_eq]
  exact List.length_set ..

theorem setBit_getD_le (f : Filter) (i j : Nat) :
    f.bits.getD j 0 ≤ (f.setBit i).bits.getD j 0 := by
  rw [setBit_eq]
  exact getD_set_le _ _ _ _ (le_lor_left _ _)

theorem foldl_setBit_m (l : List Nat) (f : Filter) :
    (l.foldl Filter.setBit f).m = f.m := by
  induction l generalizing f with
  | nil => rfl
  | cons a t ih => rw [List.foldl_cons, ih, setBit_m]

theorem foldl_setBit_n (l : List Nat) (f : Filter) :
    (l.foldl Filter.setBit f).n = f.n := by
  induction l generalizing f with
  | nil => rfl
  | cons a t ih => rw [List.foldl_cons, ih, setBit_n]

theorem foldl_setBit_keys (l : List Nat) (f : Filter) :
    (l.foldl Filter.setBit f).keys = f.keys := by
  induction l generalizing f with
  | nil => rfl
  | cons a t ih => rw [List.foldl_cons, ih, setBit_keys]

theorem foldl_setBit_length (l : List Nat) (f : Filter) :
    (l.foldl Filter.setBit f).bits.length = f.bits.length := by
  induction l generalizing f with
  | nil => rfl
  | cons a t ih => rw [List.foldl_cons, ih, setBit_length]

theorem foldl_setBit_getD_le (l : List Nat) (f : Filter) (j : Nat) :
    f.bits.getD j 0 ≤ (l.foldl Filter.setBit f).bits.getD j 0 := by
  induction l generalizing f with
  | nil => exact Nat.le_refl _
  | cons a t ih =>
    rw [List.foldl_cons]
    exact Nat.le_trans (setBit_getD_le f a j) (ih (f.setBit a))

theorem getBit_foldl_setBit (l : List Nat) (f : Filter) (i : Nat)
    (h : f.getBit i = true) : (l.foldl Filter.setBit f).getBit i = true :=
  getBit_mono f (l.foldl Filter.setBit f) (foldl_setBit_m l f)
    (foldl_setBit_getD_le l f) i h

theorem getBit_foldl_of_mem (l : List Nat) (f : Filter) (i : Nat)
    (hmem : i ∈ l) (hm : 1 ≤ f.m) (hlen : wordsFor f.m ≤ f.bits.length) :
    (l.foldl Filter.setBit f).getBit i = true := by
  induction l generalizing f with
  | nil => cases hmem
  | cons a t ih =>
    rw [List.foldl_cons]
    rcases List.mem_cons.mp hmem with he | ht
    · subst he
      exact getBit_foldl_setBit t _ i (getBit_setBit_self f i hm hlen)
    · exact ih _ ht (by rw [setBit_m]; exact hm)
        (by rw [setBit_length]; exact hlen)

theorem getBit_set_n (f : Filter) (x i : Nat) :
    Filter.getBit { f with n := x } i = f.getBit i := rfl

theorem Add_m (f : Filter) (v : Nat) : (f.Add v).m = f.m := by
  unfold Filter.Add
  exact foldl_setBit_m ..

theorem Add_keys (f : Filter) (v : Nat) : (f.Add v).keys = f.keys := by
  unfold Filter.Add
  exact foldl_setBit_keys ..

theorem Add_length (f : Filter) (v : Nat) :
    (f.Add v).bits.length = f.bits.length := by
  unfold Filter.Add
  exact foldl_setBit_length ..

theorem Add_getD_le (f : Filter) (v j : Nat) :
    f.bits.getD j 0 ≤ (f.Add v).bits.getD j 0 := by
  unfold Filter.Add
  exact foldl_setBit_getD_le ..

theorem getBit_Add (f : Filter) (v i : Nat) (h : f.getBit i = true) :
    (f.Add v).getBit i = true :=
  getBit_mono f (f.Add v) (Add_m f v) (Add_getD_le f v) i h

theorem Contains_true_iff (f : Filter) (v : Nat) :
    f.Contains v = true ↔ ∀ i ∈ f.hash v, f.getBit i = true := by
  unfold Filter.Contains
  exact List.all_eq_true

/-- Immediately after `Add(v)`, every bit the element hashes to reads
true. -/
theorem getBit_Add_self (f : Filter) (v : Nat) (hm : 1 ≤ f.m)
    (hlen : wordsFor f.m ≤ f.bits.length) :
    ∀ i ∈ f.hash v, (f.Add v).getBit i = true := by
  intro i hi
  unfold Filter.Add
  rw [getBit_set_n]
  exact getBit_foldl_of_mem _ f i hi hm hlen

theorem addAll_m (f : Filter) (vs : List Nat) : (addAll f vs).m = f.m := by
  unfold addAll
  induction vs generalizing f with
  | nil => rfl
  | cons a t ih => rw [List.foldl_cons, ih, Add_m]

theorem addAll_keys (f : Filter) (vs : List Nat) :
    (addAll f vs).keys = f.keys := by
  unfold addAll
  induction vs generalizing f with
  | nil => rfl
  | cons a t ih => rw [List.foldl_cons, ih, Add_keys]

theorem getBit_addAll (f : Filter) (vs : List Nat) (i : Nat)
    (h : f.getBit i = true) : (addAll f vs).getBit i = true := by
  unfold addAll
  induction vs generalizing f with
  | nil => exact h
  | cons a t ih =>
    rw [List.foldl_cons]
    exact ih _ (getBit_Add f a i h)

theorem hash_congr (f g : Filter) (hk : g.keys = f.keys) (v : Nat) :
    g.hash v = f.hash v := by
  unfold Filter.hash
  rw [hk]

/-- C1 — No false negatives: for every well-formed filter and every
element `e`, after `Add(e)` the call `Contains(e)` returns true, and it
still returns true after any finite sequence of further `Add` calls
with arbitrary other elements on the same filter.  (The sequence `es`
empty gives the "immediately after" case.) -/
theorem c1_no_false_negatives (f : Filter) (e : Nat) (es : List Nat)
    (hm : 1 ≤ f.m) (hlen : wordsFor f.m ≤ f.bits.length) :
    (addAll (f.Add e) es).Contains e = true := by
  rw [Contains_true_iff]
  have hkeys : (addAll (f.Add e) es).keys = f.keys := by
    rw [addAll_keys, Add_keys]
  rw [hash_congr f _ hkeys]
  intro i hi
  exact getBit_addAll _ es i (getBit_Add_self f e hm hlen i hi)

/-- Witness for C1 at a concrete filter: `m = 64`, one key `3`, insert
`5`, then insert `9` and `11`; `Contains 5` still reads true. -/
theorem c1_witness :
    1 ≤ (64 : Nat) ∧
      (addAll (Filter.Add { bits := [0], keys := [3], m := 64, n := 0 } 5)
        [9, 11]).Contains 5 = true :=
  ⟨by decide,
    c1_no_false_negatives { bits := [0], keys := [3], m := 64, n := 0 } 5 [9, 11]
      (by decide) (by decide)⟩

/-- C9 — Wraparound determinism: on a filter with a positive capacity
(every constructed filter has `m >= 2`), `getBit` and `setBit` at an
index `i >= m` behave exactly as at `i mod m`; for `setBit` the whole
resulting filter state is the same. -/
theorem c9_wraparound (f : Filter) (i : Nat) (hm : 1 ≤ f.m) (_hi : f.m ≤ i) :
    f.getBit i = f.getBit (i % f.m) ∧ f.setBit i = f.setBit (i % f.m) := by
  have hmod : (i % f.m) % f.m = i % f.m :=
    Nat.mod_eq_of_lt (Nat.mod_lt _ hm)
  constructor
  · rw [getBit_eq, getBit_eq, bitIdx_eq_mod, bitIdx_eq_mod, hmod]
  · rw [setBit_eq, setBit_eq, bitIdx_eq_mod, bitIdx_eq_mod, hmod]

/-- Witness for C9: `m = 2`, index `5` behaves as index `1`. -/
theorem c9_witness :
    Filter.getBit { bits := [1], keys := [], m := 2, n := 0 } 5 =
        Filter.getBit { bits := [1], keys := [], m := 2, n := 0 } (5 % 2) ∧
      Filter.setBit { bits := [1], keys := [], m := 2, n := 0 } 5 =
        Filter.setBit { bits := [1], keys := [], m := 2, n := 0 } (5 % 2) :=
  c9_wraparound { bits := [1], keys := [], m := 2, n := 0 } 5 (by decide) (by decide)

/-- Every `getBit` on a freshly zeroed word array reads false. -/
theorem getBit_replicate_false (len mm nn : Nat) (ks : List Nat) (i : Nat) :
    Filter.getBit { bits := List.replicate len 0, keys := ks, m := mm, n := nn } i = false := by
  rw [← Bool.not_eq_true, getBit_true_iff]
  simp only [getD_replicate_zero]
  have := Nat.two_pow_pos (bitIdx mm i &&& 63)
  omega

/-- C10 — Empty filter contains nothing: a filter freshly constructed
by `New(m, K)` (so `m >= 2`, `K >= 1`, and `newKeys` returned `K`
keys), before any `Add`, reports `Contains(e) = false` for every
element `e`. -/
theorem c10_new_contains_false (m k : Nat) (keys : List Nat) (f : Filter)
    (hnew : New m k keys = some f) (hkeys : keys.length = k) (e : Nat) :
    f.Contains e = false := by
  unfold New at hnew
  split at hnew
  · cases hnew
  · split at hnew
    · cases hnew
    · next hk0 =>
      injection hnew with hf
      subst hf
      have hne : keys ≠ [] := by
        intro hnil
        subst hnil
        simp at hkeys
        omega
      obtain ⟨k0, ks, rfl⟩ := List.exists_cons_of_ne_nil hne
      unfold Filter.Contains Filter.hash
      rw [List.map_cons, List.all_cons, getBit_replicate_false]
      exact Bool.false_and _

/-- Witness for C10: `New(2, 1)` with key `3` contains nothing. -/
theorem c10_witness :
    New 2 1 [3] = some { bits := [0], keys := [3], m := 2, n := 0 } ∧
      Filter.Contains { bits := [0], keys := [3], m := 2, n := 0 } 7 = false :=
  ⟨by decide,
    c10_new_contains_false 2 1 [3] { bits := [0], keys := [3], m := 2, n := 0 }
      (by decide) rfl 7⟩

/-- C6 — Union rejects incompatible filters: whenever `IsCompatible`
is false (differing `m`, differing `K`, or any differing key),
`Union` returns the incompatibility error and no filter.  In this
state-passing embedding a mutation of either argument would have to
appear in the returned value; the source's incompatible branch
returns the error before touching any word array, which the equation
captures: the call produces only the error. -/
theorem c6_union_rejects_incompatible (f1 f2 : Filter)
    (h : f1.IsCompatible f2 = false) :
    f1.Union f2 = Except.error "Cannot combine incompatible Bloom filters" := by
  unfold Filter.Union
  rw [h]
  rfl

/-- Witness for C6: two filters differing in `m`. -/
theorem c6_witness :
    Filter.IsCompatible { bits := [0], keys := [1], m := 2, n := 0 }
        { bits := [0], keys := [1], m := 3, n := 0 } = false ∧
      Filter.Union { bits := [0], keys := [1], m := 2, n := 0 }
          { bits := [0], keys := [1], m := 3, n := 0 } =
        Except.error "Cannot combine incompatible Bloom filters" :=
  ⟨by decide,
    c6_union_rejects_incompatible _ _ (by decide)⟩

theorem Copy_m (f : Filter) : f.Copy.m = f.m := rfl

theorem Copy_keys (f : Filter) : f.Copy.keys = f.keys :=
  List.take_left' rfl

theorem Copy_bits (f : Filter) (h : f.bits.length = wordsFor f.m) :
    f.Copy.bits = f.bits :=
  List.take_left' h

theorem IsCompatible_iff (f f2 : Filter) :
    f.IsCompatible f2 = true ↔ f.m = f2.m ∧ f.keys = f2.keys := by
  unfold Filter.IsCompatible Filter.M Filter.K
  split
  · next hc =>
    simp only [decide_eq_true_eq]
    exact ⟨fun h => ⟨hc.1, h⟩, fun h => h.2⟩
  · next hc =>
    simp only [Bool.false_eq_true, false_iff]
    intro h
    exact hc ⟨h.1, by rw [h.2]⟩

theorem Union_ok (f1 f2 out : Filter) (h : f1.Union f2 = Except.ok out) :
    f1.IsCompatible f2 = true ∧
      out = { f1.Copy with bits := orWords f1.Copy.bits f2.bits } := by
  unfold Filter.Union at h
  split at h
  · next hc =>
    injection h with h
    exact ⟨hc, h.symm⟩
  · cases h

theorem orWords_getD_left (a b : List Nat) (j : Nat) :
    a.getD j 0 ≤ (orWords a b).getD j 0 := by
  induction a generalizing b j with
  | nil =>
    cases b <;> simp [orWords, List.getD_nil]
  | cons x a ih =>
    cases b with
    | nil => exact Nat.le_refl _
    | cons y b =>
      cases j with
      | zero => exact le_lor_left x y
      | succ j =>
        rw [orWords, List.getD_cons_succ, List.getD_cons_succ]
        exact ih b j

theorem orWords_getD_right (a b : List Nat) (hlen : b.length ≤ a.length)
    (j : Nat) : b.getD j 0 ≤ (orWords a b).getD j 0 := by
  induction a generalizing b j with
  | nil =>
    have : b = [] := List.eq_nil_of_length_eq_zero (Nat.le_zero.mp (by simpa using hlen))
    subst this
    simp [orWords, List.getD_nil]
  | cons x a ih =>
    cases b with
    | nil => simp [List.getD_nil]
    | cons y b =>
      cases j with
      | zero => exact le_lor_right x y
      | succ j =>
        rw [orWords, List.getD_cons_succ, List.getD_cons_succ]
        exact ih b (by simpa using hlen) j

/-- C7 — Union preserves positives: for well-formed filters on which
`Union` succeeds (i.e. compatible ones), any element contained in
either operand is contained in the union. -/
theorem c7_union_preserves_positives (f1 f2 out : Filter) (e : Nat)
    (h1 : f1.bits.length = wordsFor f1.m)
    (h2 : f2.bits.length = wordsFor f2.m)
    (hok : f1.Union f2 = Except.ok out)
    (hc : f1.Contains e = true ∨ f2.Contains e = true) :
    out.Contains e = true := by
  obtain ⟨hcompat, hout⟩ := Union_ok f1 f2 out hok
  obtain ⟨hmeq, hkeq⟩ := (IsCompatible_iff f1 f2).mp hcompat
  have hcb : f1.Copy.bits = f1.bits := Copy_bits f1 h1
  have houtm : out.m = f1.m := by rw [hout]; exact Copy_m f1
  have houtkeys : out.keys = f1.keys := by rw [hout]; exact Copy_keys f1
  have houtbits : out.bits = orWords f1.bits f2.bits := by rw [hout, hcb]
  rw [Contains_true_iff, hash_congr f1 out houtkeys]
  intro i hi
  rcases hc with hc1 | hc2
  · refine getBit_mono f1 out houtm (fun j => ?_) i
      ((Contains_true_iff f1 e).mp hc1 i hi)
    rw [houtbits]
    exact orWords_getD_left f1.bits f2.bits j
  · refine getBit_mono f2 out (by rw [houtm, hmeq]) (fun j => ?_) i
      ((Contains_true_iff f2 e).mp hc2 i
        (by rwa [hash_congr f1 f2 hkeq.symm]))
    rw [houtbits]
    exact orWords_getD_right f1.bits f2.bits (by rw [h1, h2, hmeq]) j

/-- Witness for C7: two compatible `m = 64` filters, the first
containing the element hashing to `0`. -/
theorem c7_witness :
    Filter.Union { bits := [1], keys := [0], m := 64, n := 0 }
          { bits := [0], keys := [0], m := 64, n := 0 } =
        Except.ok { bits := [1], keys := [0], m := 64, n := 0 } ∧
      Filter.Contains { bits := [1], keys := [0], m := 64, n := 0 } 0 = true :=
  ⟨by rfl,
    c7_union_preserves_positives { bits := [1], keys := [0], m := 64, n := 0 }
      { bits := [0], keys := [0], m := 64, n := 0 }
      { bits := [1], keys := [0], m := 64, n := 0 } 0
      (by decide) (by decide) (by rfl) (Or.inl (by decide))⟩

/-- `UnmarshalBinary` never assigns `f.n` or `f.m`: `binary.Read`
receives them by value, so the receiver's counters survive every
branch, error or not. -/
theorem unmarshal_keeps_m_n (f : Filter) (data : List Nat) :
    (f.UnmarshalBinary data).1.m = f.m ∧ (f.UnmarshalBinary data).1.n = f.n := by
  unfold Filter.UnmarshalBinary
  split
  · exact ⟨rfl, rfl⟩
  · split
    · exact ⟨rfl, rfl⟩
    · split
      · exact ⟨rfl, rfl⟩
      · dsimp only
        split
        · exact ⟨rfl, rfl⟩
        · exact ⟨rfl, rfl⟩

/-- C2 — Serialization round-trip, evaluated at the failing input
`f = {m := 64, n := 0, keys := [5], bits := [3]}`: deserializing
`MarshalBinary f` into a fresh receiver reports no error but returns
the zero filter — `k`, `n` and `m` are consumed and discarded
(`binary.Read` got them by value, and `k` is a `uint32` local while
the encoder wrote a `uint64`), the key slice is rebuilt from the
stuck-at-zero `k`, and the bit array from the receiver's `n`.  The
round trip reproduces none of the fields. -/
theorem c2_roundtrip_fails :
    (Deserialize (Filter.MarshalBinary { bits := [3], keys := [5], m := 64, n := 0 })).2 = none ∧
      (Deserialize (Filter.MarshalBinary { bits := [3], keys := [5], m := 64, n := 0 })).1 ≠
        { bits := [3], keys := [5], m := 64, n := 0 } := by
  constructor
  · rfl
  · decide

/-- C4 — Word-count invariant, evaluated at the failing operation: the
receiver `{m := 64, n := 0, keys := [7], bits := [3]}` satisfies
`len(bits) = ceil(m/64)`, and decoding 20 zero bytes into it reports
success, yet afterwards the bit array is empty (its length was taken
from the insertion counter `n = 0`) while `ceil(m/64) = 1`:
`UnmarshalBinary` does not preserve the invariant. -/
theorem c4_decode_breaks_word_count :
    ({ bits := [3], keys := [7], m := 64, n := 0 } : Filter).bits.length =
        wordsFor ({ bits := [3], keys := [7], m := 64, n := 0 } : Filter).m ∧
      (Filter.UnmarshalBinary { bits := [3], keys := [7], m := 64, n := 0 }
          (List.replicate 20 0)).2 = none ∧
      (Filter.UnmarshalBinary { bits := [3], keys := [7], m := 64, n := 0 }
            (List.replicate 20 0)).1.bits.length ≠
        wordsFor (Filter.UnmarshalBinary { bits := [3], keys := [7], m := 64, n := 0 }
            (List.replicate 20 0)).1.m := by
  refine ⟨by decide, by rfl, by decide⟩

/-- C5 (amended) — Decode failure: whenever `UnmarshalBinary` reports
an error, the receiver's `m` and `n` are unchanged (they are never
assigned at all); the claim's stronger guarantee — that the whole
observable state is unchanged — fails, because the key slice and the
bit array are reallocated before the failing read
(see `c5_counterexample`). -/
theorem c5_decode_failure_keeps_m_n (f : Filter) (data : List Nat)
    (err : String) (_h : (f.UnmarshalBinary data).2 = some err) :
    (f.UnmarshalBinary data).1.m = f.m ∧ (f.UnmarshalBinary data).1.n = f.n :=
  unmarshal_keeps_m_n f data

/-- Witness for C5 (amended): the empty byte stream fails with `EOF`
and leaves `m` and `n` in place. -/
theorem c5_witness :
    (Filter.UnmarshalBinary { bits := [5], keys := [7], m := 64, n := 1 } []).2 =
        some "EOF" ∧
      (Filter.UnmarshalBinary { bits := [5], keys := [7], m := 64, n := 1 } []).1.m = 64 ∧
      (Filter.UnmarshalBinary { bits := [5], keys := [7], m := 64, n := 1 } []).1.n = 1 :=
  ⟨by decide,
    c5_decode_failure_keeps_m_n { bits := [5], keys := [7], m := 64, n := 1 } []
      "EOF" (by decide)⟩

/-- Counterexample to C5 as stated: decoding 20 zero bytes into the
receiver `{m := 64, n := 1, keys := [7], bits := [5]}` fails (the
bit-array read hits end of input), the error is reported — but the
receiver's keys have been replaced by the empty slice and its bit
array by a zeroed one-word slice: a partially-reconstructed state is
exposed. -/
theorem c5_counterexample :
    (Filter.UnmarshalBinary { bits := [5], keys := [7], m := 64, n := 1 }
        (List.replicate 20 0)).2.isSome = true ∧
      (Filter.UnmarshalBinary { bits := [5], keys := [7], m := 64, n := 1 }
          (List.replicate 20 0)).1 ≠
        { bits := [5], keys := [7], m := 64, n := 1 } := by
  decide

/-- C3 — Single-bit addressing, evaluated at the failing input: on an
`m = 64` filter, `setBit 1` turns `getBit 0` from false to true even
though `0` and `1` are not congruent modulo `m`, and even though bit 0
of the stored word (which equals `2` afterwards) is still unset: the
source tests the whole shifted word (`(bits[i>>6] >> (i&63)) != 0`,
with no `& 1` mask), so higher bits in the same word leak into the
result. -/
theorem c3_getBit_reads_other_bits :
    Filter.getBit { bits := [0], keys := [], m := 64, n := 0 } 0 = false ∧
      Filter.getBit
        (Filter.setBit { bits := [0], keys := [], m := 64, n := 0 } 1) 0 = true ∧
      Nat.testBit
        ((Filter.setBit { bits := [0], keys := [], m := 64, n := 0 } 1).bits.getD 0 0)
        0 = false ∧
      (0 : Nat) % 64 ≠ 1 % 64 := by
  decide

/-- C8 (amended) — `OptimalM(maxN, p)` computes
`ceil(-maxN * ln(p) / ln(2) * ln(2))` with the division and the
multiplication by `ln(2)` cancelling, i.e. `ceil(-maxN * ln(p))` —
not `ceil(-maxN * ln(p) * ln(2))` as the specification has it. -/
theorem c8_optimalM_formula (maxN : Nat) (p : ℝ) :
    OptimalM maxN p = ⌈-(maxN : ℝ) * Real.log p⌉ := by
  unfold OptimalM
  rw [div_mul_cancel₀ _ (ne_of_gt (Real.log_pos (by norm_num)))]

/-- Counterexample to C8 as stated: at `maxN = 100`, `p = exp(-1)` the
code's value is `ceil(100) = 100`, while the specified formula gives
`ceil(100 * ln 2) = 70`. -/
theorem c8_counterexample :
    OptimalM 100 (Real.exp (-1)) ≠ OptimalMSpecFormula 100 (Real.exp (-1)) := by
  have hlog : Real.log (Real.exp (-1)) = -1 := Real.log_exp _
  have hOM : OptimalM 100 (Real.exp (-1)) = 100 := by
    unfold OptimalM
    rw [hlog, div_mul_cancel₀ _ (ne_of_gt (Real.log_pos (by norm_num)))]
    norm_num
  have hSpec : OptimalMSpecFormula 100 (Real.exp (-1)) ≤ 70 := by
    unfold OptimalMSpecFormula
    rw [hlog]
    rw [Int.ceil_le]
    have hl2 : Real.log 2 < 0.7 :=
      lt_trans Real.log_two_lt_d9 (by norm_num)
    push_cast
    nlinarith
  omega

end BloomFilter
